import Mathlib

/-
Shallow embedding of the quadcopter simulator `sim_hw.py` over the reals.
Vectors are `Fin 3 → ℝ`, quaternions are `Fin 4 → ℝ` in scalar-first
order [w, x, y, z], matrices are Mathlib matrices.  Floating-point
arithmetic of the source is idealised as real arithmetic.
-/

set_option maxHeartbeats 1000000

/-- Quaternion multiplication `quat_mult(q, p)` (Hamilton product q * p,
scalar-first convention), transcribed entrywise from the source. -/
def quat_mult (q p : Fin 4 → ℝ) : Fin 4 → ℝ :=
  ![p 0 * q 0 - q 1 * p 1 - q 2 * p 2 - q 3 * p 3,
    q 1 * p 0 + q 0 * p 1 + q 2 * p 3 - q 3 * p 2,
    q 2 * p 0 + q 0 * p 2 + q 3 * p 1 - q 1 * p 3,
    q 3 * p 0 + q 0 * p 3 + q 1 * p 2 - q 2 * p 1]

/-- Quaternion conjugate `quat_conjugate(q)`: negate the vector part. -/
def quat_conjugate (q : Fin 4 → ℝ) : Fin 4 → ℝ :=
  ![q 0, -q 1, -q 2, -q 3]

/-- Euclidean norm `np.linalg.norm(v)` of an n-vector. -/
noncomputable def euclidNorm {n : ℕ} (v : Fin n → ℝ) : ℝ :=
  Real.sqrt (∑ i, v i ^ 2)

/-- Vector normalization `normalized(v)`: divide componentwise by the
Euclidean norm (the source performs the division unconditionally; the
divisor is zero exactly on the zero vector). -/
noncomputable def normalized {n : ℕ} (v : Fin n → ℝ) : Fin n → ℝ :=
  fun i => v i / euclidNorm v

/-- Dot product `np.dot` on 3-vectors. -/
def dot3 (a b : Fin 3 → ℝ) : ℝ := a 0 * b 0 + a 1 * b 1 + a 2 * b 2

/-- Cross product `np.cross` on 3-vectors. -/
def cross (a b : Fin 3 → ℝ) : Fin 3 → ℝ :=
  ![a 1 * b 2 - a 2 * b 1, a 2 * b 0 - a 0 * b 2, a 0 * b 1 - a 1 * b 0]

/-- `quaternion_from_vectors(v_from, v_to)`: midpoint-method quaternion,
transcribed from the source (normalize both inputs, normalize their sum,
then [dot, cross]). -/
noncomputable def quaternion_from_vectors (v_from v_to : Fin 3 → ℝ) : Fin 4 → ℝ :=
  let vf := normalized v_from
  let vt := normalized v_to
  let vm := normalized (vf + vt)
  ![dot3 vf vm, cross vf vm 0, cross vf vm 1, cross vf vm 2]

/-- Sign disambiguation applied to the attitude-error quaternion in
`Robot.control`: if the scalar part is negative, negate the whole
quaternion. -/
noncomputable def signFix (q : Fin 4 → ℝ) : Fin 4 → ℝ := if q 0 < 0 then -q else q

/-- Sum of squares of a nonzero vector is positive. -/
lemma sum_sq_pos_of_ne_zero {n : ℕ} (v : Fin n → ℝ) (hv : v ≠ 0) :
    0 < ∑ i, v i ^ 2 := by
  rcases Function.ne_iff.mp hv with ⟨i, hi⟩
  have hle : v i ^ 2 ≤ ∑ j, v j ^ 2 :=
    Finset.single_le_sum (fun j _ => sq_nonneg (v j)) (Finset.mem_univ i)
  have : 0 < v i ^ 2 := pow_two_pos_of_ne_zero hi
  linarith

/-- Euclidean norm vanishes exactly on the zero vector. -/
lemma euclidNorm_eq_zero_iff {n : ℕ} (v : Fin n → ℝ) :
    euclidNorm v = 0 ↔ v = 0 := by
  constructor
  · intro h
    by_contra hv
    have hpos := sum_sq_pos_of_ne_zero v hv
    have := Real.sqrt_pos.mpr hpos
    rw [euclidNorm] at h
    linarith
  · intro h
    subst h
    simp [euclidNorm]

/-- Normalizing a nonzero vector yields a unit-norm vector. -/
lemma euclidNorm_normalized {n : ℕ} (v : Fin n → ℝ) (hv : v ≠ 0) :
    euclidNorm (normalized v) = 1 := by
  have hpos := sum_sq_pos_of_ne_zero v hv
  have hs : Real.sqrt (∑ i, v i ^ 2) ^ 2 = ∑ i, v i ^ 2 :=
    Real.sq_sqrt hpos.le
  have hne : Real.sqrt (∑ i, v i ^ 2) ≠ 0 := by
    have := Real.sqrt_pos.mpr hpos
    linarith
  unfold euclidNorm normalized euclidNorm
  have hsum : ∑ i, (v i / Real.sqrt (∑ j, v j ^ 2)) ^ 2 = 1 := by
    simp only [div_pow]
    rw [← Finset.sum_div, hs, div_self hpos.ne.symm]
  rw [hsum, Real.sqrt_one]

/-- Squared Euclidean norm of a nonzero vector, after normalization, is 1
(componentwise sum form, used by the quaternion-from-vectors proof). -/
lemma sum_sq_normalized {n : ℕ} (v : Fin n → ℝ) (hv : v ≠ 0) :
    ∑ i, normalized v i ^ 2 = 1 := by
  have h := euclidNorm_normalized v hv
  rw [euclidNorm] at h
  have hnn : 0 ≤ ∑ i, normalized v i ^ 2 :=
    Finset.sum_nonneg fun i _ => sq_nonneg _
  nlinarith [Real.sq_sqrt hnn]

/-- Claim C7: the divisor in `normalized` (the Euclidean norm) is zero
exactly on the zero 4-vector — the division-by-zero failure occurs iff the
input is zero — and on every nonzero input `normalized` returns the input
divided componentwise by its norm, which has unit Euclidean norm. -/
theorem normalized_domain_and_unit (v : Fin 4 → ℝ) :
    (euclidNorm v = 0 ↔ v = 0) ∧
    (normalized v = fun i => v i / euclidNorm v) ∧
    (v ≠ 0 → euclidNorm (normalized v) = 1) :=
  ⟨euclidNorm_eq_zero_iff v, rfl, euclidNorm_normalized v⟩

/-- Witness for C7 at the concrete nonzero vector [3,0,0,0]. -/
theorem normalized_domain_and_unit_witness :
    euclidNorm (normalized ![(3 : ℝ), 0, 0, 0]) = 1 := by
  have hne : ![(3 : ℝ), 0, 0, 0] ≠ (0 : Fin 4 → ℝ) := by
    intro h
    have h0 := congrFun h 0
    simp at h0
  exact (normalized_domain_and_unit ![(3 : ℝ), 0, 0, 0]).2.2 hne

/-- Conjugation sandwich is invariant under negating the rotating
quaternion (double-cover property), for arbitrary 4-vectors. -/
lemma sandwich_neg (e p : Fin 4 → ℝ) :
    quat_mult (quat_mult (-e) p) (quat_conjugate (-e)) =
      quat_mult (quat_mult e p) (quat_conjugate e) := by
  funext i
  fin_cases i <;>
    simp [quat_mult, quat_conjugate, Pi.neg_apply, Matrix.cons_val_zero,
      Matrix.cons_val_one, Matrix.head_cons] <;> ring

/-- Claim C10: for every raw attitude-error quaternion
`quat_mult (quat_conjugate q_ref) q`, the sign-fixed quaternion used by the
controller has non-negative scalar part, and conjugating any 4-vector by the
sign-fixed quaternion agrees with conjugating by the raw one. -/
theorem signFix_nonneg_same_rotation (q_ref q : Fin 4 → ℝ) :
    0 ≤ signFix (quat_mult (quat_conjugate q_ref) q) 0 ∧
    ∀ p : Fin 4 → ℝ,
      quat_mult (quat_mult (signFix (quat_mult (quat_conjugate q_ref) q)) p)
          (quat_conjugate (signFix (quat_mult (quat_conjugate q_ref) q))) =
        quat_mult (quat_mult (quat_mult (quat_conjugate q_ref) q) p)
          (quat_conjugate (quat_mult (quat_conjugate q_ref) q)) := by
  set e := quat_mult (quat_conjugate q_ref) q with he
  by_cases h : e 0 < 0
  · constructor
    · simp only [signFix, if_pos h, Pi.neg_apply]
      linarith
    · intro p
      simp only [signFix, if_pos h]
      exact sandwich_neg e p
  · constructor
    · simp only [signFix, if_neg h]
      linarith [not_lt.mp h]
    · intro p
      simp only [signFix, if_neg h]

/-- Rigid-body state: semantic decomposition of the flat 13-element state
vector of the source (indices 0-2 position, 3-5 velocity, 6-9 quaternion
w,x,y,z, 10-12 body angular velocity). -/
structure State where
  pos : Fin 3 → ℝ
  vel : Fin 3 → ℝ
  quat : Fin 4 → ℝ
  omega : Fin 3 → ℝ

/-- Body-to-world rotation matrix
`scipy.spatial.transform.Rotation.from_quat([x,y,z,w]).as_matrix()`:
scipy normalizes the quaternion and applies the standard conversion; the
entries are quadratic in the quaternion, so this equals the standard
formula divided by the squared norm. -/
noncomputable def rotMat (q : Fin 4 → ℝ) : Matrix (Fin 3) (Fin 3) ℝ :=
  let w := q 0
  let x := q 1
  let y := q 2
  let z := q 3
  let n := w ^ 2 + x ^ 2 + y ^ 2 + z ^ 2
  !![(w ^ 2 + x ^ 2 - y ^ 2 - z ^ 2) / n, 2 * (x * y - w * z) / n, 2 * (x * z + w * y) / n;
     2 * (x * y + w * z) / n, (w ^ 2 - x ^ 2 + y ^ 2 - z ^ 2) / n, 2 * (y * z - w * x) / n;
     2 * (x * z - w * y) / n, 2 * (y * z + w * x) / n, (w ^ 2 - x ^ 2 - y ^ 2 + z ^ 2) / n]

namespace Robot

/-- Mass `self.m` (kg). -/
def m : ℝ := 1.0

/-- Arm length `self.arm_length` (m), motor to center. -/
def arm_length : ℝ := 0.25

/-- Inertia matrix `self.J = 0.025 * np.eye(3)`. -/
def J : Matrix (Fin 3) (Fin 3) ℝ := (0.025 : ℝ) • (1 : Matrix (Fin 3) (Fin 3) ℝ)

/-- Inverse inertia `self.J_inv = np.linalg.inv(self.J)`; the inverse of
0.025 times the identity is 40 times the identity (see `J_inv_mul_J`). -/
def J_inv : Matrix (Fin 3) (Fin 3) ℝ := (40 : ℝ) • (1 : Matrix (Fin 3) (Fin 3) ℝ)

/-- Thrust coefficient `self.constant_thrust = 10e-4`. -/
def constant_thrust : ℝ := 10e-4

/-- Drag coefficient `self.constant_drag = 10e-6`. -/
def constant_drag : ℝ := 10e-6

/-- The modelled `J_inv` really is the matrix inverse of `J`. -/
lemma J_inv_mul_J : J_inv * J = 1 ∧ J * J_inv = 1 := by
  constructor <;>
    · ext i j
      simp [J, J_inv, Matrix.smul_apply, Matrix.one_apply]
      norm_num

/-- Action of `J` on a vector: scalar multiplication by 0.025. -/
lemma J_mulVec (v : Fin 3 → ℝ) : J.mulVec v = fun i => 0.025 * v i := by
  funext i
  simp [J, Matrix.smul_mulVec_assoc, Matrix.one_mulVec]

/-- Action of `J_inv` on a vector: scalar multiplication by 40. -/
lemma J_inv_mulVec (v : Fin 3 → ℝ) : J_inv.mulVec v = fun i => 40 * v i := by
  funext i
  simp [J_inv, Matrix.smul_mulVec_assoc, Matrix.one_mulVec]

/-- Total body-frame thrust `constant_thrust * np.sum(omegas_motor**2)`
from `Robot.update`. -/
def thrust_total (omegas_motor : Fin 4 → ℝ) : ℝ :=
  constant_thrust * ∑ i, omegas_motor i ^ 2

/-- Body torque vector [tau_x, tau_y, tau_z] computed from the rotor
speeds in `Robot.update` / `Robot.update_wind`. -/
def tau_b_of (omegas_motor : Fin 4 → ℝ) : Fin 3 → ℝ :=
  ![constant_thrust * (omegas_motor 3 ^ 2 - omegas_motor 1 ^ 2) * 2 * arm_length,
    constant_thrust * (omegas_motor 2 ^ 2 - omegas_motor 0 ^ 2) * 2 * arm_length,
    constant_drag * (omegas_motor 0 ^ 2 - omegas_motor 1 ^ 2 +
      omegas_motor 2 ^ 2 - omegas_motor 3 ^ 2)]

/-- Angular acceleration expression
`omega_dot = J_inv @ (np.cross(J @ omega, omega) + tau_b)` of the
integrators. -/
def omega_dot_expr (omega tau_b : Fin 3 → ℝ) : Fin 3 → ℝ :=
  J_inv.mulVec (cross (J.mulVec omega) omega + tau_b)

/-- Quaternion derivative `q_dot = 1/2 * quat_mult(q, [0, *omega])` of the
integrators. -/
noncomputable def q_dot_expr (q : Fin 4 → ℝ) (omega : Fin 3 → ℝ) : Fin 4 → ℝ :=
  (1 / 2 : ℝ) • quat_mult q ![0, omega 0, omega 1, omega 2]

/-- Unnormalized post-integration quaternion: `q + q_dot * dt`, the value
the renormalization division is applied to at the end of a step. -/
noncomputable def quatRaw (s : State) (dt : ℝ) : Fin 4 → ℝ :=
  s.quat + dt • q_dot_expr s.quat s.omega

/-- Mixer matrix `B` of `Robot.control`, mapping squared rotor speeds to
[thrust, tau_x, tau_y, tau_z]. -/
def B : Matrix (Fin 4) (Fin 4) ℝ :=
  !![constant_thrust, constant_thrust, constant_thrust, constant_thrust;
     0, -arm_length * constant_thrust, 0, arm_length * constant_thrust;
     -arm_length * constant_thrust, 0, arm_length * constant_thrust, 0;
     constant_drag, -constant_drag, constant_drag, -constant_drag]

/-- `B_inv = np.linalg.inv(B)` of `Robot.control`: explicit inverse of the
mixer matrix (verified by `B_mul_B_inv`). -/
noncomputable def B_inv : Matrix (Fin 4) (Fin 4) ℝ :=
  !![1 / (4 * constant_thrust), 0, -1 / (2 * arm_length * constant_thrust),
       1 / (4 * constant_drag);
     1 / (4 * constant_thrust), -1 / (2 * arm_length * constant_thrust), 0,
       -1 / (4 * constant_drag);
     1 / (4 * constant_thrust), 0, 1 / (2 * arm_length * constant_thrust),
       1 / (4 * constant_drag);
     1 / (4 * constant_thrust), 1 / (2 * arm_length * constant_thrust), 0,
       -1 / (4 * constant_drag)]

/-- The modelled `B_inv` really is the two-sided matrix inverse of `B`. -/
lemma B_mul_B_inv : B * B_inv = 1 ∧ B_inv * B = 1 := by
  constructor <;>
    · ext i j
      fin_cases i <;> fin_cases j <;>
        simp [B, B_inv, Matrix.mul_apply, Fin.sum_univ_four, Matrix.one_apply,
          constant_thrust, constant_drag, arm_length] <;> norm_num

/-- Squared rotor speeds `omega_motor_square = B_inv @ [thrust, *tau]` of
`Robot.control` (the mixer solution). -/
noncomputable def omega_motor_square (cmd : Fin 4 → ℝ) : Fin 4 → ℝ :=
  B_inv.mulVec cmd

/-- Rotor speeds `omega_motor = np.sqrt(np.clip(omega_motor_square, 0, None))`
of `Robot.control`. -/
noncomputable def omega_motor_of (cmd : Fin 4 → ℝ) : Fin 4 → ℝ :=
  fun i => Real.sqrt (max (omega_motor_square cmd i) 0)

/-- Forward thrust/torque mapping of the integrator `Robot.update`:
rotor speeds to [total thrust, tau_x, tau_y, tau_z]. -/
def forwardThrustTau (omegas_motor : Fin 4 → ℝ) : Fin 4 → ℝ :=
  ![thrust_total omegas_motor, tau_b_of omegas_motor 0,
    tau_b_of omegas_motor 1, tau_b_of omegas_motor 2]

end Robot

/-- The quadcopter: mutable attributes of the `Robot` class.  The constant
physical parameters (m, arm_length, J, ..., set once in `__init__`) are the
top-level constants of namespace `Robot`.  `F0`, `omega_w`, `wind_force`
and `phi` are attributes attached outside `__init__` (by
`generate_training_data` and by `update_wind` itself). -/
structure Robot where
  state : State
  time : ℝ
  omega_motors : Fin 4 → ℝ
  F0 : Fin 3 → ℝ
  omega_w : ℝ
  wind_force : Fin 3 → ℝ
  phi : ℝ

namespace Robot

/-- `reset_state_and_input(init_xyz, init_quat_wxyz)`: zero velocity and
angular velocity, given position and orientation. -/
def reset_state_and_input (init_xyz : Fin 3 → ℝ) (init_quat_wxyz : Fin 4 → ℝ) : State :=
  { pos := init_xyz, vel := ![0, 0, 0], quat := init_quat_wxyz, omega := ![0, 0, 0] }

/-- A freshly constructed `Robot()` with the wind parameters `F0` and
`omega_w` attached afterwards, as done per sweep combination in
`generate_training_data`.  `wind_force`/`phi` do not exist until the first
`update_wind` call; they are initialised to 0 here (never read before being
written). -/
def init (F0 : Fin 3 → ℝ) (omega_w : ℝ) : Robot :=
  { state := reset_state_and_input ![1, 0, 0] ![1, 0, 0, 0],
    time := 0,
    omega_motors := ![0, 0, 0, 0],
    F0 := F0,
    omega_w := omega_w,
    wind_force := ![0, 0, 0],
    phi := 0 }

/-- `Robot.update(omegas_motor, dt)`: one explicit-Euler step of the
no-wind rigid-body dynamics, mutating `state` and `time`. -/
noncomputable def update (r : Robot) (omegas_motor : Fin 4 → ℝ) (dt : ℝ) : Robot :=
  let q := r.state.quat
  let omega := r.state.omega
  let R := rotMat q
  let f_b : Fin 3 → ℝ := ![0, 0, thrust_total omegas_motor]
  let tau_b := tau_b_of omegas_motor
  let v_dot := (1 / m) • R.mulVec f_b + ![0, 0, -9.81]
  let omega_dot := omega_dot_expr omega tau_b
  let q_dot := q_dot_expr q omega
  let p_dot := r.state.vel
  { r with
    state :=
      { pos := r.state.pos + dt • p_dot,
        vel := r.state.vel + dt • v_dot,
        quat := normalized (q + dt • q_dot),
        omega := omega + dt • omega_dot },
    time := r.time + dt }

/-- `Robot.update_wind(omegas_motor, dt)`: one explicit-Euler step with the
sinusoidal wind force `F0 * sin(omega_w * time + phi)` (phi is assigned 0)
added to the body-frame thrust before dividing by the mass; also stores the
wind force and phi on the robot. -/
noncomputable def update_wind (r : Robot) (omegas_motor : Fin 4 → ℝ) (dt : ℝ) : Robot :=
  let q := r.state.quat
  let omega := r.state.omega
  let R := rotMat q
  let f_b : Fin 3 → ℝ := ![0, 0, thrust_total omegas_motor]
  let tau_b := tau_b_of omegas_motor
  let phi : ℝ := 0
  let wind_force := Real.sin (r.omega_w * r.time + phi) • r.F0
  let v_dot := (1 / m) • (R.mulVec f_b + wind_force) + ![0, 0, -9.81]
  let omega_dot := omega_dot_expr omega tau_b
  let q_dot := q_dot_expr q omega
  let p_dot := r.state.vel
  { r with
    state :=
      { pos := r.state.pos + dt • p_dot,
        vel := r.state.vel + dt • v_dot,
        quat := normalized (q + dt • q_dot),
        omega := omega + dt • omega_dot },
    time := r.time + dt,
    wind_force := wind_force,
    phi := phi }

/-- Desired world-frame force of the position loop of `Robot.control`:
`f = m * (-k_d * (v_I - (-k_p * (p_I - p_d_I))) + [0,0,9.81])` with
k_p = 1.0 and k_d = 10.0. -/
def desiredForce (s : State) (p_d_I : Fin 3 → ℝ) : Fin 3 → ℝ :=
  m • ((-(10.0 : ℝ)) • (s.vel - (-(1.0 : ℝ)) • (s.pos - p_d_I)) + ![0, 0, 9.81])

/-- Commanded thrust of `Robot.control`:
`np.max([0, f_b[2]])` where `f_b = R.T @ f`. -/
noncomputable def thrust_of (s : State) (p_d_I : Fin 3 → ℝ) : ℝ :=
  max 0 ((rotMat s.quat).transpose.mulVec (desiredForce s p_d_I) 2)

/-- `Robot.control(p_d_I)`: cascaded position/attitude controller returning
the 4 commanded rotor speeds. -/
noncomputable def control (r : Robot) (p_d_I : Fin 3 → ℝ) : Fin 4 → ℝ :=
  let q := r.state.quat
  let omega_b := r.state.omega
  let f := desiredForce r.state p_d_I
  let thrust := thrust_of r.state p_d_I
  let q_ref := quaternion_from_vectors ![0, 0, 1] (normalized f)
  let q_err := signFix (quat_mult (quat_conjugate q_ref) q)
  let k_q : ℝ := 20.0
  let omega_ref : Fin 3 → ℝ :=
    ![-k_q * 2 * q_err 1, -k_q * 2 * q_err 2, -k_q * 2 * q_err 3]
  let k_omega : ℝ := 100.0
  let alpha := (-k_omega) • (omega_b - omega_ref)
  let tau := J.mulVec alpha + cross omega_b (J.mulVec omega_b)
  omega_motor_of ![thrust, tau 0, tau 1, tau 2]

end Robot

/-- Control loop frequency `CONTROL_FREQUENCY = 200` Hz. -/
def CONTROL_FREQUENCY : ℝ := 200

/-- Timestep `dt = 1.0 / CONTROL_FREQUENCY`. -/
noncomputable def dt : ℝ := 1.0 / CONTROL_FREQUENCY

/-- `control_propellers(quad)`: one driver tick — evaluate the reference
trajectory at the robot's clock, ask the controller for rotor speeds, and
integrate with `update_wind` (the `update` call is commented out in the
source). -/
noncomputable def control_propellers (quad : Robot) : Robot :=
  let t := quad.time
  let T : ℝ := 1.5
  let r := 2 * Real.pi * t / T
  let prop_thrusts := quad.control ![Real.cos (r / 2), Real.sin r, 0]
  quad.update_wind prop_thrusts dt

/-- Per-tick dataset record of `generate_training_data`:
`np.concatenate([vel(3), quat(4), omega_motors(4), wind_force(3)])`,
kept as a structured quadruple in concatenation order. -/
def datasetRecord (quad : Robot) :
    (Fin 3 → ℝ) × (Fin 4 → ℝ) × (Fin 4 → ℝ) × (Fin 3 → ℝ) :=
  (quad.state.vel, quad.state.quat, quad.omega_motors, quad.wind_force)

/-- The integrators' angular-acceleration expression rewritten through
Euler's rigid-body equation (cross-product antisymmetry). -/
lemma omega_dot_expr_eq (omega tau_b : Fin 3 → ℝ) :
    Robot.omega_dot_expr omega tau_b =
      Robot.J_inv.mulVec (tau_b - cross omega (Robot.J.mulVec omega)) := by
  funext i
  fin_cases i <;>
    simp [Robot.omega_dot_expr, Robot.J_mulVec, Robot.J_inv_mulVec, cross,
      Pi.add_apply, Pi.sub_apply] <;> ring

/-- Claim C5: the angular acceleration applied by both integrators equals
J⁻¹·(torque − ω×(J·ω)): the code's expression J⁻¹·((J·ω)×ω + torque) is
equal to it for every ω and torque, and each step updates omega by dt times
that quantity. -/
theorem omega_dot_euler_equation :
    (∀ omega tau_b : Fin 3 → ℝ,
      Robot.omega_dot_expr omega tau_b =
        Robot.J_inv.mulVec (tau_b - cross omega (Robot.J.mulVec omega))) ∧
    (∀ (r : Robot) (omegas : Fin 4 → ℝ) (d : ℝ),
      (r.update omegas d).state.omega =
        r.state.omega + d • Robot.J_inv.mulVec
          (Robot.tau_b_of omegas - cross r.state.omega (Robot.J.mulVec r.state.omega)) ∧
      (r.update_wind omegas d).state.omega =
        r.state.omega + d • Robot.J_inv.mulVec
          (Robot.tau_b_of omegas - cross r.state.omega (Robot.J.mulVec r.state.omega))) := by
  refine ⟨omega_dot_expr_eq, fun r omegas d => ⟨?_, ?_⟩⟩
  · simp [Robot.update, omega_dot_expr_eq]
  · simp [Robot.update_wind, omega_dot_expr_eq]

/-- Claim C3: one `update_wind` step with zero wind amplitude produces
exactly the same successor state and clock as one `update` step with the
same inputs. -/
theorem update_wind_zero_amplitude (r : Robot) (omegas : Fin 4 → ℝ) (d : ℝ)
    (hF0 : r.F0 = ![0, 0, 0]) :
    (r.update_wind omegas d).state = (r.update omegas d).state ∧
    (r.update_wind omegas d).time = (r.update omegas d).time := by
  have hwind : Real.sin (r.omega_w * r.time) • r.F0 = (0 : Fin 3 → ℝ) := by
    rw [hF0]
    funext i
    fin_cases i <;> simp
  constructor <;>
    simp [Robot.update, Robot.update_wind, hwind, Matrix.vecHead, Matrix.vecTail]

/-- Witness for C3 at a concrete robot with F0 = [0,0,0]. -/
theorem update_wind_zero_amplitude_witness :
    ((Robot.init ![0, 0, 0] 1).update_wind ![0, 0, 0, 0] 0).state =
      ((Robot.init ![0, 0, 0] 1).update ![0, 0, 0, 0] 0).state :=
  (update_wind_zero_amplitude (Robot.init ![0, 0, 0] 1) ![0, 0, 0, 0] 0 rfl).1

/-- Claim C2: after one step of either integrator, whenever the
unnormalized post-integration quaternion is nonzero, the stored orientation
quaternion has unit Euclidean norm (re-established by the renormalization
division), for arbitrary states, rotor speeds and timestep. -/
theorem quat_renormalized_unit (r : Robot) (omegas : Fin 4 → ℝ) (d : ℝ)
    (h : Robot.quatRaw r.state d ≠ 0) :
    euclidNorm ((r.update omegas d).state.quat) = 1 ∧
    euclidNorm ((r.update_wind omegas d).state.quat) = 1 :=
  ⟨euclidNorm_normalized (Robot.quatRaw r.state d) h,
   euclidNorm_normalized (Robot.quatRaw r.state d) h⟩

/-- Witness for C2 at the freshly constructed robot with dt = 0. -/
theorem quat_renormalized_unit_witness :
    euclidNorm (((Robot.init ![0, 0, 0] 0).update ![0, 0, 0, 0] 0).state.quat) = 1 := by
  have h : Robot.quatRaw (Robot.init ![0, 0, 0] 0).state 0 ≠ 0 := by
    intro h
    have h0 := congrFun h 0
    simp [Robot.quatRaw, Robot.init, Robot.reset_state_and_input] at h0
  exact (quat_renormalized_unit (Robot.init ![0, 0, 0] 0) ![0, 0, 0, 0] 0 h).1

/-- One `update` step leaves `omega_motors` untouched. -/
lemma update_omega_motors (r : Robot) (om : Fin 4 → ℝ) (d : ℝ) :
    (r.update om d).omega_motors = r.omega_motors := rfl

/-- One `update_wind` step leaves `omega_motors` untouched. -/
lemma update_wind_omega_motors (r : Robot) (om : Fin 4 → ℝ) (d : ℝ) :
    (r.update_wind om d).omega_motors = r.omega_motors := rfl

/-- One driver tick leaves `omega_motors` untouched. -/
lemma control_propellers_omega_motors (r : Robot) :
    (control_propellers r).omega_motors = r.omega_motors := rfl

/-- Claim C4: `omega_motors` is [0,0,0,0] at construction and is written by
none of `update`, `update_wind` or `control_propellers` (and `control` is a
pure function of the robot, returning the speeds without storing them); so
the rotorSpeeds slot of every per-tick dataset record of
`generate_training_data` is the zero vector, not the commanded speeds. -/
theorem omega_motors_never_written :
    (∀ (r : Robot) (om : Fin 4 → ℝ) (d : ℝ),
      (r.update om d).omega_motors = r.omega_motors) ∧
    (∀ (r : Robot) (om : Fin 4 → ℝ) (d : ℝ),
      (r.update_wind om d).omega_motors = r.omega_motors) ∧
    (∀ r : Robot, (control_propellers r).omega_motors = r.omega_motors) ∧
    (∀ (F0 : Fin 3 → ℝ) (ow : ℝ) (n : ℕ),
      (datasetRecord (control_propellers^[n] (Robot.init F0 ow))).2.2.1 = ![0, 0, 0, 0]) := by
  refine ⟨update_omega_motors, update_wind_omega_motors,
    control_propellers_omega_motors, fun F0 ow n => ?_⟩
  induction n with
  | zero => rfl
  | succ k ih =>
    rw [Function.iterate_succ_apply']
    simpa [datasetRecord, control_propellers_omega_motors] using ih

/-- Claim C6: whenever the desired world-frame force is nonzero (the case
where `control` is defined), `control` returns 4 non-negative rotor speeds,
the commanded thrust is max(0, body-frame force z-component), and the
squared rotor speeds are clipped to ≥ 0 before the square root. -/
theorem control_nonneg (r : Robot) (p_d_I : Fin 3 → ℝ)
    (hf : Robot.desiredForce r.state p_d_I ≠ 0) :
    (∀ i, 0 ≤ r.control p_d_I i) ∧
    Robot.thrust_of r.state p_d_I =
      max 0 ((rotMat r.state.quat).transpose.mulVec (Robot.desiredForce r.state p_d_I) 2) := by
  refine ⟨fun i => ?_, rfl⟩
  simp only [Robot.control, Robot.omega_motor_of]
  exact Real.sqrt_nonneg _

/-- Witness for C6 at the freshly constructed robot commanding the origin:
the desired force there is (-10, 0, 9.81), which is nonzero. -/
theorem control_nonneg_witness :
    Robot.desiredForce (Robot.init ![0, 0, 0] 0).state ![0, 0, 0] ≠ 0 ∧
    0 ≤ (Robot.init ![0, 0, 0] 0).control ![0, 0, 0] 0 := by
  have hf : Robot.desiredForce (Robot.init ![0, 0, 0] 0).state ![0, 0, 0] ≠ 0 := by
    intro h
    have h2 := congrFun h 2
    simp [Robot.desiredForce, Robot.init, Robot.reset_state_and_input, Robot.m] at h2
    norm_num at h2
  exact ⟨hf, (control_nonneg (Robot.init ![0, 0, 0] 0) ![0, 0, 0] hf).1 0⟩

/-- When the mixer solution is non-negative, squaring the returned rotor
speed recovers the mixer solution (clip is the identity there). -/
lemma omega_motor_sq (cmd : Fin 4 → ℝ) (h : ∀ i, 0 ≤ Robot.omega_motor_square cmd i)
    (i : Fin 4) :
    Robot.omega_motor_of cmd i ^ 2 = Robot.omega_motor_square cmd i := by
  rw [Robot.omega_motor_of, Real.sq_sqrt (le_max_right _ 0)]
  exact max_eq_left (h i)

/-- The mixer solution written out entrywise. -/
lemma omega_motor_square_entries (cmd : Fin 4 → ℝ) :
    Robot.omega_motor_square cmd =
      ![250 * cmd 0 - 2000 * cmd 2 + 25000 * cmd 3,
        250 * cmd 0 - 2000 * cmd 1 - 25000 * cmd 3,
        250 * cmd 0 + 2000 * cmd 2 + 25000 * cmd 3,
        250 * cmd 0 + 2000 * cmd 1 - 25000 * cmd 3] := by
  funext i
  fin_cases i <;>
    simp [Robot.omega_motor_square, Robot.B_inv, Matrix.mulVec, Matrix.dotProduct,
      Fin.sum_univ_four, Robot.constant_thrust, Robot.constant_drag, Robot.arm_length] <;>
    norm_num <;> ring

/-- Counterexample for C1: at the commanded tuple
(thrust, tau_x, tau_y, tau_z) = (0.004, 0.0001, 0, 0) the mixer solution is
(1, 0.8, 1, 1.2), all non-negative, yet feeding the resulting rotor speeds
back through the integrator's forward thrust/torque mapping returns
tau_x = 0.0002, twice the commanded roll torque. -/
theorem mixer_roundtrip_counterexample :
    (∀ i, 0 ≤ Robot.omega_motor_square ![0.004, 0.0001, 0, 0] i) ∧
    Robot.forwardThrustTau (Robot.omega_motor_of ![0.004, 0.0001, 0, 0]) ≠
      ![0.004, 0.0001, 0, 0] := by
  have hs : Robot.omega_motor_square ![(0.004 : ℝ), 0.0001, 0, 0] = ![1, 0.8, 1, 1.2] := by
    rw [omega_motor_square_entries]
    funext i
    fin_cases i <;> norm_num
  have hpos : ∀ i, 0 ≤ Robot.omega_motor_square ![(0.004 : ℝ), 0.0001, 0, 0] i := by
    intro i
    rw [hs]
    fin_cases i <;> norm_num
  refine ⟨hpos, fun h => ?_⟩
  have h1 := congrFun h 1
  have e1 : Robot.omega_motor_of ![(0.004 : ℝ), 0.0001, 0, 0] 1 ^ 2 = 0.8 := by
    rw [omega_motor_sq _ hpos 1, hs]
    norm_num
  have e3 : Robot.omega_motor_of ![(0.004 : ℝ), 0.0001, 0, 0] 3 ^ 2 = 1.2 := by
    rw [omega_motor_sq _ hpos 3, hs]
    norm_num
  simp only [Robot.forwardThrustTau, Robot.tau_b_of, Matrix.cons_val_one,
    Matrix.head_cons, Matrix.cons_val_zero] at h1
  rw [e1, e3] at h1
  rw [Robot.constant_thrust, Robot.arm_length] at h1
  norm_num at h1

/-- Claim C1 (amended): round-tripping a commanded
(thrust, tau_x, tau_y, tau_z) with non-negative mixer solution through the
mixer and then the integrator's forward thrust/torque mapping returns
(thrust, 2·tau_x, 2·tau_y, tau_z): thrust and yaw torque are recovered
exactly, roll and pitch torques are doubled (the forward model applies a
2·arm_length torque arm while the mixer matrix uses arm_length). -/
theorem mixer_roundtrip_amended (cmd : Fin 4 → ℝ)
    (h : ∀ i, 0 ≤ Robot.omega_motor_square cmd i) :
    Robot.forwardThrustTau (Robot.omega_motor_of cmd) =
      ![cmd 0, 2 * cmd 1, 2 * cmd 2, cmd 3] := by
  have h0 := omega_motor_sq cmd h 0
  have h1 := omega_motor_sq cmd h 1
  have h2 := omega_motor_sq cmd h 2
  have h3 := omega_motor_sq cmd h 3
  rw [omega_motor_square_entries] at h0 h1 h2 h3
  simp only [Matrix.cons_val_zero, Matrix.cons_val_one, Matrix.head_cons,
    Matrix.cons_val_two, Matrix.tail_cons, Matrix.cons_val_three] at h0 h1 h2 h3
  funext i
  fin_cases i <;>
    simp only [Robot.forwardThrustTau, Robot.thrust_total, Robot.tau_b_of,
      Fin.sum_univ_four, Matrix.cons_val_zero, Matrix.cons_val_one, Matrix.head_cons,
      Matrix.cons_val_two, Matrix.tail_cons, Matrix.cons_val_three, Fin.isValue] <;>
    rw [h0, h1, h2, h3] <;>
    rw [Robot.constant_thrust, Robot.constant_drag, Robot.arm_length] <;>
    ring_nf <;> norm_num <;> ring

/-- Witness for C1 (amended) at the commanded tuple (0.004, 0.0001, 0, 0),
whose mixer solution (1, 0.8, 1, 1.2) is non-negative. -/
theorem mixer_roundtrip_amended_witness :
    (∀ i, 0 ≤ Robot.omega_motor_square ![(0.004 : ℝ), 0.0001, 0, 0] i) ∧
    Robot.forwardThrustTau (Robot.omega_motor_of ![(0.004 : ℝ), 0.0001, 0, 0]) =
      ![0.004, 2 * 0.0001, 2 * 0, 0] := by
  have hpos : ∀ i, 0 ≤ Robot.omega_motor_square ![(0.004 : ℝ), 0.0001, 0, 0] i := by
    intro i
    rw [omega_motor_square_entries]
    fin_cases i <;> simp <;> norm_num
  refine ⟨hpos, ?_⟩
  have := mixer_roundtrip_amended ![(0.004 : ℝ), 0.0001, 0, 0] hpos
  rw [this]
  funext i
  fin_cases i <;> simp

/-- Midpoint-method quaternion of two unit vectors has unit norm
(Lagrange identity: dot squared plus cross-norm squared is the product of
the squared norms). -/
lemma qfv_norm (u m : Fin 3 → ℝ)
    (hu : u 0 ^ 2 + u 1 ^ 2 + u 2 ^ 2 = 1) (hm : m 0 ^ 2 + m 1 ^ 2 + m 2 ^ 2 = 1) :
    euclidNorm ![dot3 u m, cross u m 0, cross u m 1, cross u m 2] = 1 := by
  have hsum : ∑ i, (![dot3 u m, cross u m 0, cross u m 1, cross u m 2]) i ^ 2 = 1 := by
    simp only [Fin.sum_univ_four, Matrix.cons_val_zero, Matrix.cons_val_one,
      Matrix.head_cons, Matrix.cons_val_two, Matrix.tail_cons, Matrix.cons_val_three,
      dot3, cross]
    linear_combination (m 0 ^ 2 + m 1 ^ 2 + m 2 ^ 2) * hu + hm
  rw [euclidNorm, hsum, Real.sqrt_one]

/-- Conjugating the pure quaternion of a unit vector u by the
midpoint-method quaternion [u·m, u×m] (m a unit vector) reflects u across
m: the result is the pure quaternion of 2(u·m)m − u. -/
lemma qfv_sandwich (u m : Fin 3 → ℝ)
    (hu : u 0 ^ 2 + u 1 ^ 2 + u 2 ^ 2 = 1) (hm : m 0 ^ 2 + m 1 ^ 2 + m 2 ^ 2 = 1) :
    quat_mult
        (quat_mult ![dot3 u m, cross u m 0, cross u m 1, cross u m 2] ![0, u 0, u 1, u 2])
        (quat_conjugate ![dot3 u m, cross u m 0, cross u m 1, cross u m 2]) =
      ![0, 2 * dot3 u m * m 0 - u 0, 2 * dot3 u m * m 1 - u 1,
        2 * dot3 u m * m 2 - u 2] := by
  funext i
  fin_cases i
  · simp [quat_mult, quat_conjugate, dot3, cross]
    ring
  · simp [quat_mult, quat_conjugate, dot3, cross]
    linear_combination
      (2 * (u 0 * m 0 + u 1 * m 1 + u 2 * m 2) * m 0
        - (m 0 ^ 2 + m 1 ^ 2 + m 2 ^ 2) * u 0) * hu - u 0 * hm
  · simp [quat_mult, quat_conjugate, dot3, cross]
    linear_combination
      (2 * (u 0 * m 0 + u 1 * m 1 + u 2 * m 2) * m 1
        - (m 0 ^ 2 + m 1 ^ 2 + m 2 ^ 2) * u 1) * hu - u 1 * hm
  · simp [quat_mult, quat_conjugate, dot3, cross]
    linear_combination
      (2 * (u 0 * m 0 + u 1 * m 1 + u 2 * m 2) * m 2
        - (m 0 ^ 2 + m 1 ^ 2 + m 2 ^ 2) * u 2) * hu - u 2 * hm

/-- Reflecting a unit vector u across the normalized midpoint of u and a
unit vector t yields t (provided u + t is nonzero). -/
lemma midpoint_reflection (u t : Fin 3 → ℝ)
    (hu : u 0 ^ 2 + u 1 ^ 2 + u 2 ^ 2 = 1) (ht : t 0 ^ 2 + t 1 ^ 2 + t 2 ^ 2 = 1)
    (hs : u + t ≠ 0) (i : Fin 3) :
    2 * dot3 u (normalized (u + t)) * normalized (u + t) i - u i = t i := by
  have hS : 0 < ∑ j, (u + t) j ^ 2 := sum_sq_pos_of_ne_zero _ hs
  have hSexp : ∑ j, (u + t) j ^ 2
      = (u 0 + t 0) ^ 2 + (u 1 + t 1) ^ 2 + (u 2 + t 2) ^ 2 := by
    simp [Fin.sum_univ_three]
  have hS2 : 0 < (u 0 + t 0) ^ 2 + (u 1 + t 1) ^ 2 + (u 2 + t 2) ^ 2 := hSexp ▸ hS
  have hm : ∀ j : Fin 3, normalized (u + t) j
      = (u j + t j) / Real.sqrt ((u 0 + t 0) ^ 2 + (u 1 + t 1) ^ 2 + (u 2 + t 2) ^ 2) := by
    intro j
    simp [normalized, euclidNorm, Fin.sum_univ_three]
  set w := Real.sqrt ((u 0 + t 0) ^ 2 + (u 1 + t 1) ^ 2 + (u 2 + t 2) ^ 2) with hwdef
  have hsqrt : w ^ 2 = (u 0 + t 0) ^ 2 + (u 1 + t 1) ^ 2 + (u 2 + t 2) ^ 2 :=
    Real.sq_sqrt hS2.le
  have hw0 : w ≠ 0 := by
    have := Real.sqrt_pos.mpr hS2
    rw [hwdef]
    linarith
  rw [dot3, hm 0, hm 1, hm 2, hm i]
  field_simp
  linear_combination (u i + t i) * hu - (u i + t i) * ht - (u i + t i) * hsqrt

/-- Claim C8: for nonzero, non-antiparallel input vectors (the sum of the
normalized inputs is nonzero), `quaternion_from_vectors` returns the
midpoint-method quaternion, which has unit Euclidean norm and conjugates
the pure quaternion of the normalized vFrom to the pure quaternion of the
normalized vTo. -/
theorem quaternion_from_vectors_correct (v_from v_to : Fin 3 → ℝ)
    (hf : v_from ≠ 0) (ht : v_to ≠ 0)
    (hmid : normalized v_from + normalized v_to ≠ 0) :
    quaternion_from_vectors v_from v_to =
      ![dot3 (normalized v_from) (normalized (normalized v_from + normalized v_to)),
        cross (normalized v_from) (normalized (normalized v_from + normalized v_to)) 0,
        cross (normalized v_from) (normalized (normalized v_from + normalized v_to)) 1,
        cross (normalized v_from) (normalized (normalized v_from + normalized v_to)) 2] ∧
    euclidNorm (quaternion_from_vectors v_from v_to) = 1 ∧
    quat_mult
        (quat_mult (quaternion_from_vectors v_from v_to)
          ![0, normalized v_from 0, normalized v_from 1, normalized v_from 2])
        (quat_conjugate (quaternion_from_vectors v_from v_to)) =
      ![0, normalized v_to 0, normalized v_to 1, normalized v_to 2] := by
  have hu : normalized v_from 0 ^ 2 + normalized v_from 1 ^ 2 + normalized v_from 2 ^ 2 = 1 := by
    have h := sum_sq_normalized v_from hf
    simpa [Fin.sum_univ_three] using h
  have htt : normalized v_to 0 ^ 2 + normalized v_to 1 ^ 2 + normalized v_to 2 ^ 2 = 1 := by
    have h := sum_sq_normalized v_to ht
    simpa [Fin.sum_univ_three] using h
  have hm : normalized (normalized v_from + normalized v_to) 0 ^ 2
      + normalized (normalized v_from + normalized v_to) 1 ^ 2
      + normalized (normalized v_from + normalized v_to) 2 ^ 2 = 1 := by
    have h := sum_sq_normalized (normalized v_from + normalized v_to) hmid
    simpa [Fin.sum_univ_three] using h
  have hq : quaternion_from_vectors v_from v_to =
      ![dot3 (normalized v_from) (normalized (normalized v_from + normalized v_to)),
        cross (normalized v_from) (normalized (normalized v_from + normalized v_to)) 0,
        cross (normalized v_from) (normalized (normalized v_from + normalized v_to)) 1,
        cross (normalized v_from) (normalized (normalized v_from + normalized v_to)) 2] := rfl
  refine ⟨hq, ?_, ?_⟩
  · rw [hq]
    exact qfv_norm _ _ hu hm
  · rw [hq, qfv_sandwich _ _ hu hm]
    funext i
    fin_cases i
    · rfl
    · exact midpoint_reflection (normalized v_from) (normalized v_to) hu htt hmid 0
    · exact midpoint_reflection (normalized v_from) (normalized v_to) hu htt hmid 1
    · exact midpoint_reflection (normalized v_from) (normalized v_to) hu htt hmid 2

/-- Witness for C8 at vFrom = [0,0,1], vTo = [1,0,0] (nonzero and not
antiparallel). -/
theorem quaternion_from_vectors_correct_witness :
    euclidNorm (quaternion_from_vectors ![(0 : ℝ), 0, 1] ![(1 : ℝ), 0, 0]) = 1 := by
  have hf : ![(0 : ℝ), 0, 1] ≠ (0 : Fin 3 → ℝ) := by
    intro h
    have h2 := congrFun h 2
    simp at h2
  have ht : ![(1 : ℝ), 0, 0] ≠ (0 : Fin 3 → ℝ) := by
    intro h
    have h0 := congrFun h 0
    simp at h0
  have hmid : normalized ![(0 : ℝ), 0, 1] + normalized ![(1 : ℝ), 0, 0] ≠ 0 := by
    intro h
    have h2 := congrFun h 2
    norm_num [normalized, euclidNorm, Fin.sum_univ_three, Real.sqrt_one] at h2
  exact (quaternion_from_vectors_correct ![(0 : ℝ), 0, 1] ![(1 : ℝ), 0, 0] hf ht hmid).2.1

/-- Claim C9: quaternion multiplication is associative over all 4-vectors,
[1,0,0,0] is a two-sided identity, and `quat_mult q (quat_conjugate q)`
is the pure real scalar [w^2+x^2+y^2+z^2, 0, 0, 0]. -/
theorem quat_mult_assoc_id_conj :
    (∀ q p r : Fin 4 → ℝ, quat_mult (quat_mult q p) r = quat_mult q (quat_mult p r)) ∧
    (∀ q : Fin 4 → ℝ, quat_mult ![1, 0, 0, 0] q = q ∧ quat_mult q ![1, 0, 0, 0] = q) ∧
    (∀ q : Fin 4 → ℝ,
      quat_mult q (quat_conjugate q) =
        ![q 0 ^ 2 + q 1 ^ 2 + q 2 ^ 2 + q 3 ^ 2, 0, 0, 0]) := by
  refine ⟨?_, ?_, ?_⟩
  · intro q p r
    funext i
    fin_cases i <;>
      simp [quat_mult, Matrix.cons_val_zero, Matrix.cons_val_one, Matrix.head_cons] <;> ring
  · intro q
    constructor <;> (funext i; fin_cases i) <;>
      simp [quat_mult, Matrix.cons_val_zero, Matrix.cons_val_one, Matrix.head_cons] <;> ring
  · intro q
    funext i
    fin_cases i <;>
      simp [quat_mult, quat_conjugate, Matrix.cons_val_zero, Matrix.cons_val_one,
        Matrix.head_cons] <;> ring
